import Mathlib

set_option maxHeartbeats 1000000

/-!
Shallow embedding of the consul state-store watch subsystem
(src/consul/state/watch.go) and of the catalog state store exercised by
src/consul/state/state_store_test.go, together with proofs of the
behavioural properties claimed for them.
-/

/-- Modelled from the spec: NotifyGroup (its source file is not under src/).
A one-shot broadcast primitive: the set of currently registered wake
channels; firing wakes every registered channel and forgets all
registrations.  A channel is modelled as a natural number and a group as
the list of its registered channels. -/
abbrev NotifyGroup := List Nat

/-- FullTableWatch (watch.go): a single embedded NotifyGroup for one table. -/
abbrev FullTableWatch := NotifyGroup

/-- The keys of an association list of notify groups. -/
def keysOf (t : List (String × NotifyGroup)) : List String :=
  t.map (fun e => e.1)

/-- Exact lookup of the group stored at key k. -/
def treeGet (t : List (String × NotifyGroup)) (k : String) : Option NotifyGroup :=
  (t.find? (fun e => e.1 == k)).map (fun e => e.2)

/-- Firing the group stored at key k: the group forgets its registrations
(NotifyGroup.Notify removes all registrations after waking them). -/
def clearKey (k : String) (t : List (String × NotifyGroup)) : List (String × NotifyGroup) :=
  t.map (fun e => if e.1 == k then (e.1, ([] : NotifyGroup)) else e)

/-- DumbWatchManager (watch.go): the fixed table-name to FullTableWatch
mapping given at construction plus the set of armed tables. -/
structure DumbWatchManager where
  tableWatches : List (String × FullTableWatch)
  armed : List String
deriving DecidableEq

/-- NewDumbWatchManager (watch.go): a fresh manager with an empty armed set. -/
def NewDumbWatchManager (tw : List (String × FullTableWatch)) : DumbWatchManager :=
  { tableWatches := tw, armed := [] }

/-- DumbWatchManager.Arm (watch.go): mark the table armed when it is not
armed already; the table name is not validated against the mapping. -/
def DumbWatchManager.Arm (d : DumbWatchManager) (table : String) : DumbWatchManager :=
  if d.armed.contains table then d else { d with armed := d.armed ++ [table] }

/-- The loop body of DumbWatchManager.Notify (watch.go): for each armed
table in order, look the table up in the mapping and fire its watch
(clearing the group's registrations).  Looking up a table absent from the
mapping yields a nil FullTableWatch whose Notify dereferences nil — a
runtime panic, modelled as `none`.  On success, returns the list of tables
whose watch was fired, in order, together with the updated mapping. -/
def notifyTables :
    List String → List (String × FullTableWatch) →
      Option (List String × List (String × FullTableWatch))
  | [], tw => some ([], tw)
  | t :: rest, tw =>
    match tw.find? (fun e => e.1 == t) with
    | none => none
    | some _ =>
      match notifyTables rest (clearKey t tw) with
      | none => none
      | some (fired, tw2) => some (t :: fired, tw2)

/-- DumbWatchManager.Notify (watch.go): fire the watch of every armed
table; the armed set itself is not modified. -/
def DumbWatchManager.Notify (d : DumbWatchManager) :
    Option (List String × DumbWatchManager) :=
  match notifyTables d.armed d.tableWatches with
  | none => none
  | some (fired, tw2) => some (fired, { d with tableWatches := tw2 })

/-- N repeated Arm calls for the same table. -/
def ArmN (d : DumbWatchManager) (t : String) : Nat → DumbWatchManager
  | 0 => d
  | n + 1 => (ArmN d t n).Arm t

/-- PrefixWatch (watch.go): one notify group per string key.  The
third-party radix tree is modelled, per the spec's external-collaborator
interface, as an association list with unique keys supporting exact
get/insert/delete, an ancestor walk and a subtree walk. -/
structure PrefixWatch where
  watches : List (String × NotifyGroup)
deriving DecidableEq

/-- NewPrefixWatch (watch.go): an empty tree of watches. -/
def NewPrefixWatch : PrefixWatch := { watches := [] }

/-- k is a string prefix of s (the radix tree's key ordering relation). -/
def strPre (k s : String) : Bool := k.toList.isPrefixOf s.toList

/-- PrefixWatch.GetSubwatch (watch.go): return the notify group stored at
exactly this key, lazily inserting a fresh empty group when absent. -/
def PrefixWatch.GetSubwatch (w : PrefixWatch) (k : String) :
    NotifyGroup × PrefixWatch :=
  match treeGet w.watches k with
  | some g => (g, w)
  | none => (([] : NotifyGroup), { watches := w.watches ++ [(k, ([] : NotifyGroup))] })

/-- The walk callback of PrefixWatch.Notify (watch.go): fire the group of
each visited key in order.  Each fired group wakes its registered channels
and forgets them, so a key visited twice contributes its channels once. -/
def fireKeys :
    List String → List (String × NotifyGroup) →
      List Nat × List (String × NotifyGroup)
  | [], t => ([], t)
  | k :: rest, t =>
    match treeGet t k with
    | none => fireKeys rest t
    | some g =>
      let r := fireKeys rest (clearKey k t)
      (g ++ r.1, r.2)

/-- Exact deletion of a key from the tree. -/
def deleteKey (k : String) (t : List (String × NotifyGroup)) :
    List (String × NotifyGroup) :=
  t.filter (fun e => !(e.1 == k))

/-- PrefixWatch.Notify (watch.go): walk the path from the tree root down to
the key p (every stored key of which p is an extension) and, when subtree
is set, also the whole subtree below p; fire every group visited; then
delete every visited key except the empty root key, in reverse discovery
order.  Returns the woken channels and the updated watch. -/
def PrefixWatch.Notify (w : PrefixWatch) (p : String) (subtree : Bool) :
    List Nat × PrefixWatch :=
  let pathKeys := (w.watches.filter (fun e => strPre e.1 p)).map (fun e => e.1)
  let subKeys :=
    if subtree then (w.watches.filter (fun e => strPre p e.1)).map (fun e => e.1)
    else []
  let visited := pathKeys ++ subKeys
  let fired := fireKeys visited w.watches
  let cleanup := visited.filter (fun k => !(k == ""))
  (fired.1, { watches := cleanup.foldr deleteKey fired.2 })

/-! ### Basic lemmas about the association-list operations -/

theorem keysOf_clearKey (k : String) (t : List (String × NotifyGroup)) :
    keysOf (clearKey k t) = keysOf t := by
  induction t with
  | nil => rfl
  | cons e rest ih =>
    show (if e.1 == k then (e.1, ([] : NotifyGroup)) else e).1 ::
        keysOf (clearKey k rest) = e.1 :: keysOf rest
    rw [ih]
    congr 1
    split <;> rfl

theorem find?_key_isSome (tw : List (String × NotifyGroup)) (k : String) :
    (tw.find? (fun e => e.1 == k)).isSome = true ↔ k ∈ keysOf tw := by
  rw [List.find?_isSome]
  constructor
  · rintro ⟨e, he, hk⟩
    have he1 : e.1 = k := by simpa using hk
    exact he1 ▸ List.mem_map_of_mem _ he
  · intro hk
    rcases List.mem_map.mp hk with ⟨e, he, hke⟩
    exact ⟨e, he, by simp [hke]⟩

theorem arm_tableWatches (d : DumbWatchManager) (t : String) :
    (d.Arm t).tableWatches = d.tableWatches := by
  unfold DumbWatchManager.Arm
  split <;> rfl

theorem arm_mem_self (d : DumbWatchManager) (t : String) :
    t ∈ (d.Arm t).armed := by
  unfold DumbWatchManager.Arm
  split
  · next h => simpa using h
  · next h => simp

theorem arm_of_contains (d : DumbWatchManager) (t : String)
    (h : d.armed.contains t = true) : d.Arm t = d := by
  unfold DumbWatchManager.Arm
  rw [h]
  simp

theorem arm_arm (d : DumbWatchManager) (t : String) :
    (d.Arm t).Arm t = d.Arm t :=
  arm_of_contains _ _ (by simpa using arm_mem_self d t)

theorem armN_succ_eq (d : DumbWatchManager) (t : String) (n : Nat) :
    ArmN d t (n + 1) = d.Arm t := by
  induction n with
  | zero => rfl
  | succ m ih =>
    show (ArmN d t (m + 1)).Arm t = d.Arm t
    rw [ih, arm_arm]

theorem arm_count (d : DumbWatchManager) (t : String) (hnd : d.armed.Nodup) :
    (d.Arm t).armed.count t = 1 := by
  unfold DumbWatchManager.Arm
  split
  · next h =>
    have hm : t ∈ d.armed := by simpa using h
    exact List.count_eq_one_of_mem hnd hm
  · next h =>
    have hm : t ∉ d.armed := by simpa using h
    simp [List.count_append, List.count_eq_zero_of_not_mem hm]

theorem notifyTables_fired (ts : List String)
    (tw tw2 : List (String × FullTableWatch)) (f : List String)
    (h : notifyTables ts tw = some (f, tw2)) : f = ts := by
  induction ts generalizing tw tw2 f with
  | nil => simp [notifyTables] at h; simp [h.1]
  | cons u rest ih =>
    unfold notifyTables at h
    cases hf : tw.find? (fun e => e.1 == u) with
    | none => rw [hf] at h; exact absurd h (by simp)
    | some e =>
      rw [hf] at h
      cases hr : notifyTables rest (clearKey u tw) with
      | none => rw [hr] at h; exact absurd h (by simp)
      | some r =>
        rw [hr] at h
        simp only [Option.some.injEq, Prod.mk.injEq] at h
        have := ih (clearKey u tw) r.2 r.1 (by rw [hr])
        rw [← h.1, this]

theorem keysOf_notifyTables (ts : List String)
    (tw tw2 : List (String × FullTableWatch)) (f : List String)
    (h : notifyTables ts tw = some (f, tw2)) : keysOf tw2 = keysOf tw := by
  induction ts generalizing tw tw2 f with
  | nil => simp [notifyTables] at h; simp [h.2]
  | cons u rest ih =>
    unfold notifyTables at h
    cases hf : tw.find? (fun e => e.1 == u) with
    | none => rw [hf] at h; exact absurd h (by simp)
    | some e =>
      rw [hf] at h
      cases hr : notifyTables rest (clearKey u tw) with
      | none => rw [hr] at h; exact absurd h (by simp)
      | some r =>
        rw [hr] at h
        simp only [Option.some.injEq, Prod.mk.injEq] at h
        have := ih (clearKey u tw) r.2 r.1 (by rw [hr])
        rw [← h.2, this, keysOf_clearKey]

theorem notifyTables_isSome (ts : List String)
    (tw : List (String × FullTableWatch))
    (h : ∀ u ∈ ts, u ∈ keysOf tw) :
    ∃ r, notifyTables ts tw = some r := by
  induction ts generalizing tw with
  | nil => exact ⟨([], tw), rfl⟩
  | cons u rest ih =>
    have hu : u ∈ keysOf tw := h u (by simp)
    have hs : (tw.find? (fun e => e.1 == u)).isSome = true :=
      (find?_key_isSome tw u).mpr hu
    cases hf : tw.find? (fun e => e.1 == u) with
    | none => rw [hf] at hs; exact absurd hs (by simp)
    | some e =>
      have hrest : ∀ v ∈ rest, v ∈ keysOf (clearKey u tw) := by
        intro v hv
        rw [keysOf_clearKey]
        exact h v (by simp [hv])
      obtain ⟨r, hr⟩ := ih (clearKey u tw) hrest
      exact ⟨(u :: r.1, r.2), by unfold notifyTables; rw [hf, hr]⟩

theorem notifyTables_some_cov (ts : List String)
    (tw : List (String × FullTableWatch)) (r : List String × List (String × FullTableWatch))
    (h : notifyTables ts tw = some r) : ∀ u ∈ ts, u ∈ keysOf tw := by
  induction ts generalizing tw r with
  | nil => intro u hu; exact absurd hu (by simp)
  | cons v rest ih =>
    unfold notifyTables at h
    cases hf : tw.find? (fun e => e.1 == v) with
    | none => rw [hf] at h; exact absurd h (by simp)
    | some e =>
      rw [hf] at h
      cases hr : notifyTables rest (clearKey v tw) with
      | none => rw [hr] at h; exact absurd h (by simp)
      | some r2 =>
        intro u hu
        rcases List.mem_cons.mp hu with h1 | h2
        · subst h1
          exact (find?_key_isSome tw u).mp (by rw [hf]; rfl)
        · have := ih (clearKey v tw) r2 hr u h2
          rwa [keysOf_clearKey] at this

theorem notifyTables_none (ts : List String)
    (tw : List (String × FullTableWatch)) (t : String)
    (ht : t ∈ ts) (h : t ∉ keysOf tw) : notifyTables ts tw = none := by
  induction ts generalizing tw with
  | nil => exact absurd ht (by simp)
  | cons u rest ih =>
    unfold notifyTables
    cases hf : tw.find? (fun e => e.1 == u) with
    | none => rfl
    | some e =>
      have hu : u ∈ keysOf tw := (find?_key_isSome tw u).mp (by rw [hf]; rfl)
      have hne : t ≠ u := fun he => h (he ▸ hu)
      have htr : t ∈ rest := by
        rcases List.mem_cons.mp ht with h1 | h2
        · exact absurd h1 hne
        · exact h2
      have : notifyTables rest (clearKey u tw) = none :=
        ih (clearKey u tw) htr (by rwa [keysOf_clearKey])
      rw [this]

theorem notify_eq (d : DumbWatchManager) (f : List String)
    (tw2 : List (String × FullTableWatch))
    (h : notifyTables d.armed d.tableWatches = some (f, tw2)) :
    d.Notify = some (f, { d with tableWatches := tw2 }) := by
  unfold DumbWatchManager.Notify
  rw [h]

theorem notify_inv (d : DumbWatchManager) (f : List String) (d2 : DumbWatchManager)
    (h : d.Notify = some (f, d2)) :
    notifyTables d.armed d.tableWatches = some (f, d2.tableWatches) ∧
      d2.armed = d.armed := by
  unfold DumbWatchManager.Notify at h
  cases hnt : notifyTables d.armed d.tableWatches with
  | none => rw [hnt] at h; exact absurd h (by simp)
  | some r =>
    obtain ⟨fr, tw2⟩ := r
    rw [hnt] at h
    have h' : some ((fr, ({ d with tableWatches := tw2 } : DumbWatchManager))) =
        some ((f, d2)) := h
    have h2 := Option.some.inj h'
    have hf : fr = f := congrArg Prod.fst h2
    have hd : ({ d with tableWatches := tw2 } : DumbWatchManager) = d2 :=
      congrArg Prod.snd h2
    subst hf
    rw [← hd]
    exact ⟨rfl, rfl⟩

/-- Claim C8: for every DumbWatchManager over its fixed table-to-watch
mapping and every table t of that mapping, a sequence of N ≥ 1 Arm(t)
calls followed by one Notify() invokes t's FullTableWatch.Notify() exactly
once, and Arm is idempotent: N calls leave the manager exactly as one call
does. -/
theorem dumbWatch_arm_idem_notify_once
    (d : DumbWatchManager) (t : String) (n : Nat)
    (hn : 1 ≤ n) (hnd : d.armed.Nodup)
    (hcov : ∀ u ∈ (d.Arm t).armed, u ∈ keysOf d.tableWatches) :
    ArmN d t n = d.Arm t ∧
      ((d.Arm t).Notify).map (fun r => r.1.count t) = some 1 := by
  constructor
  · obtain ⟨m, rfl⟩ : ∃ m, n = m + 1 :=
      ⟨n - 1, (Nat.succ_pred_eq_of_pos hn).symm⟩
    exact armN_succ_eq d t m
  · have hcov2 : ∀ u ∈ (d.Arm t).armed, u ∈ keysOf (d.Arm t).tableWatches := by
      rw [arm_tableWatches]; exact hcov
    obtain ⟨⟨f, tw2⟩, hr⟩ :=
      notifyTables_isSome (d.Arm t).armed (d.Arm t).tableWatches hcov2
    have hnot := notify_eq (d.Arm t) f tw2 hr
    have hf : f = (d.Arm t).armed := notifyTables_fired _ _ _ _ hr
    rw [hnot]
    simp only [Option.map_some']
    rw [hf, arm_count d t hnd]

/-- Claim C9 counterexample: calling Arm with a table name absent from the
mapping the manager was constructed with completes normally and silently
records the table as armed — it is not a fatal/panic-class failure at Arm
time.  The second conjunct records that the table is indeed unknown to the
mapping. -/
theorem dumbWatch_arm_unknown_silent :
    (NewDumbWatchManager []).Arm "kvs" =
        { tableWatches := [], armed := ["kvs"] } ∧
      (NewDumbWatchManager []).tableWatches.find? (fun e => e.1 == "kvs") =
        none := ⟨rfl, rfl⟩

/-- Claim C9 amended: arming a table name unknown to the mapping succeeds
silently at Arm time; the programmer error surfaces only when Notify() is
later called, which dereferences the nil watch of the armed-but-unknown
table — an unrecoverable runtime panic, modelled as `none`. -/
theorem dumbWatch_arm_unknown_notify_panics (d : DumbWatchManager) (t : String)
    (h : t ∉ keysOf d.tableWatches) : (d.Arm t).Notify = none := by
  have hm : t ∈ (d.Arm t).armed := arm_mem_self d t
  have hn : notifyTables (d.Arm t).armed (d.Arm t).tableWatches = none := by
    apply notifyTables_none _ _ t hm
    rw [arm_tableWatches]
    exact h
  unfold DumbWatchManager.Notify
  rw [hn]

/-- Witness for the amended C9 theorem at a concrete input. -/
theorem dumbWatch_arm_unknown_notify_panics_witness :
    (keysOf (NewDumbWatchManager []).tableWatches).contains "kvs" = false ∧
      ((NewDumbWatchManager []).Arm "kvs").Notify = none :=
  ⟨rfl, dumbWatch_arm_unknown_notify_panics (NewDumbWatchManager []) "kvs"
    (by simp [NewDumbWatchManager, keysOf])⟩

/-- Claim C10: Notify leaves the armed set unchanged — it never clears or
resets it — so a second Notify on the same manager fires every armed
table's watch again (the same fired-table list); only constructing a fresh
manager yields an empty armed set. -/
theorem dumbWatch_notify_preserves_armed (d : DumbWatchManager)
    (f : List String) (d2 : DumbWatchManager)
    (tw : List (String × FullTableWatch))
    (h : d.Notify = some (f, d2)) :
    d2.armed = d.armed ∧ (d2.Notify).map Prod.fst = some f ∧
      (NewDumbWatchManager tw).armed = [] := by
  obtain ⟨hnt, harm⟩ := notify_inv d f d2 h
  have hf : f = d.armed := notifyTables_fired _ _ _ _ hnt
  refine ⟨harm, ?_, rfl⟩
  have hcov : ∀ u ∈ d2.armed, u ∈ keysOf d2.tableWatches := by
    intro u hu
    rw [harm] at hu
    have h1 := notifyTables_some_cov _ _ _ hnt u hu
    rwa [keysOf_notifyTables _ _ _ _ hnt]
  obtain ⟨⟨f2, tw3⟩, hr⟩ := notifyTables_isSome d2.armed d2.tableWatches hcov
  have hf2 : f2 = d2.armed := notifyTables_fired _ _ _ _ hr
  rw [notify_eq d2 f2 tw3 hr]
  simp only [Option.map_some']
  rw [hf2, harm, ← hf]

/-- Concrete manager for the C8 witness: one table, no registrations. -/
def w8d : DumbWatchManager := NewDumbWatchManager [("nodes", ([] : FullTableWatch))]

/-- Witness for the C8 theorem at a concrete input. -/
theorem dumbWatch_arm_idem_notify_once_witness :
    1 ≤ 2 ∧ w8d.armed.Nodup ∧
      (ArmN w8d "nodes" 2 = w8d.Arm "nodes" ∧
        ((w8d.Arm "nodes").Notify).map (fun r => r.1.count "nodes") = some 1) :=
  ⟨by decide, by simp [w8d, NewDumbWatchManager],
    dumbWatch_arm_idem_notify_once w8d "nodes" 2 (by decide)
      (by simp [w8d, NewDumbWatchManager]) (by decide)⟩

/-- Concrete manager for the C10 witness, with one armed table. -/
def w10d : DumbWatchManager :=
  { tableWatches := [("nodes", ([7] : FullTableWatch))], armed := ["nodes"] }

/-- The manager after one Notify: group cleared, armed set untouched. -/
def w10d2 : DumbWatchManager :=
  { tableWatches := [("nodes", ([] : FullTableWatch))], armed := ["nodes"] }

/-- Witness for the C10 theorem at a concrete input. -/
theorem dumbWatch_notify_preserves_armed_witness :
    w10d.Notify = some (["nodes"], w10d2) ∧
      (w10d2.armed = w10d.armed ∧
        (w10d2.Notify).map Prod.fst = some ["nodes"] ∧
        (NewDumbWatchManager []).armed = []) :=
  ⟨by decide, dumbWatch_notify_preserves_armed w10d ["nodes"] w10d2 [] (by decide)⟩

/-! ### Lemmas about the prefix-watch tree operations -/

/-- The registrations currently stored at key k (empty when k is absent). -/
def regsAt (t : List (String × NotifyGroup)) (k : String) : NotifyGroup :=
  (treeGet t k).getD []

theorem treeGet_eq_none_iff (t : List (String × NotifyGroup)) (k : String) :
    treeGet t k = none ↔ k ∉ keysOf t := by
  unfold treeGet
  rw [Option.map_eq_none']
  constructor
  · intro h hk
    have hs := (find?_key_isSome t k).mpr hk
    rw [h] at hs
    exact absurd hs (by simp)
  · intro hk
    cases hf : t.find? (fun e => e.1 == k) with
    | none => rfl
    | some e =>
      have : k ∈ keysOf t := (find?_key_isSome t k).mp (by rw [hf]; rfl)
      exact absurd this hk

theorem find?_cons_pos {α : Type} (p : α → Bool) (a : α) (l : List α)
    (h : p a = true) : (a :: l).find? p = some a :=
  List.find?_cons_of_pos l h

theorem find?_cons_neg {α : Type} (p : α → Bool) (a : α) (l : List α)
    (h : ¬ p a = true) : (a :: l).find? p = l.find? p :=
  List.find?_cons_of_neg l h

theorem find?_some' {α : Type} (p : α → Bool) (l : List α) (a : α)
    (h : l.find? p = some a) : p a = true :=
  List.find?_some h

theorem find?_clearKey (k k2 : String) (t : List (String × NotifyGroup)) :
    (clearKey k t).find? (fun e => e.1 == k2) =
      (t.find? (fun e => e.1 == k2)).map
        (fun e => if e.1 == k then (e.1, ([] : NotifyGroup)) else e) := by
  induction t with
  | nil => rfl
  | cons e rest ih =>
    by_cases he2 : (e.1 == k2) = true
    · have hh2 : ((if e.1 == k then (e.1, ([] : NotifyGroup)) else e).1 == k2) = true := by
        split <;> simpa using he2
      show ((if e.1 == k then (e.1, ([] : NotifyGroup)) else e) :: clearKey k rest).find?
          (fun e => e.1 == k2) = _
      rw [find?_cons_pos (fun (x : String × NotifyGroup) => x.1 == k2) _ _ hh2,
        find?_cons_pos (fun (x : String × NotifyGroup) => x.1 == k2) _ _ he2]
      rfl
    · have hh2 : ¬ ((if e.1 == k then (e.1, ([] : NotifyGroup)) else e).1 == k2) = true := by
        split <;> simpa using he2
      show ((if e.1 == k then (e.1, ([] : NotifyGroup)) else e) :: clearKey k rest).find?
          (fun e => e.1 == k2) = _
      rw [find?_cons_neg (fun (x : String × NotifyGroup) => x.1 == k2) _ _ hh2,
        find?_cons_neg (fun (x : String × NotifyGroup) => x.1 == k2) _ _ he2]
      exact ih

theorem treeGet_clearKey_ne (k k2 : String) (t : List (String × NotifyGroup))
    (h : ¬ k2 = k) : treeGet (clearKey k t) k2 = treeGet t k2 := by
  unfold treeGet
  rw [find?_clearKey]
  cases hf : t.find? (fun e => e.1 == k2) with
  | none => rfl
  | some e =>
    have hp : (e.1 == k2) = true := find?_some' (fun e => e.1 == k2) t e hf
    have he2 : e.1 = k2 := by simpa using hp
    have hek : ¬ (e.1 == k) = true := by
      subst he2
      simpa using h
    show some ((if e.1 == k then (e.1, ([] : NotifyGroup)) else e).2) = some e.2
    rw [if_neg hek]

theorem regsAt_clearKey_ne (k k2 : String) (t : List (String × NotifyGroup))
    (h : ¬ k2 = k) : regsAt (clearKey k t) k2 = regsAt t k2 := by
  unfold regsAt
  rw [treeGet_clearKey_ne k k2 t h]

theorem regsAt_clearKey_self (k : String) (t : List (String × NotifyGroup)) :
    regsAt (clearKey k t) k = [] := by
  unfold regsAt treeGet
  rw [find?_clearKey]
  cases hf : t.find? (fun e => e.1 == k) with
  | none => rfl
  | some e =>
    have hp : (e.1 == k) = true := find?_some' (fun e => e.1 == k) t e hf
    show (if e.1 == k then (e.1, ([] : NotifyGroup)) else e).2 = []
    rw [if_pos hp]

theorem mem_fireKeys (ks : List String) (t : List (String × NotifyGroup)) (c : Nat) :
    c ∈ (fireKeys ks t).1 ↔ ∃ k ∈ ks, c ∈ regsAt t k := by
  induction ks generalizing t with
  | nil => simp [fireKeys]
  | cons k rest ih =>
    cases hg : treeGet t k with
    | none =>
      simp only [fireKeys, hg]
      rw [ih]
      constructor
      · rintro ⟨k2, hk2, hc⟩
        exact ⟨k2, by simp [hk2], hc⟩
      · rintro ⟨k2, hk2, hc⟩
        rcases List.mem_cons.mp hk2 with h1 | h2
        · subst h1
          rw [show regsAt t k2 = [] from by simp [regsAt, hg]] at hc
          exact absurd hc (by simp)
        · exact ⟨k2, h2, hc⟩
    | some g =>
      simp only [fireKeys, hg, List.mem_append]
      rw [ih]
      constructor
      · rintro (hc | ⟨k2, hk2, hc⟩)
        · exact ⟨k, by simp, by simp [regsAt, hg, hc]⟩
        · by_cases hkk : k2 = k
          · subst hkk
            rw [regsAt_clearKey_self] at hc
            exact absurd hc (by simp)
          · exact ⟨k2, by simp [hk2], by rwa [regsAt_clearKey_ne k k2 t hkk] at hc⟩
      · rintro ⟨k2, hk2, hc⟩
        rcases List.mem_cons.mp hk2 with h1 | h2
        · subst h1
          left
          simpa [regsAt, hg] using hc
        · by_cases hkk : k2 = k
          · subst hkk
            left
            simpa [regsAt, hg] using hc
          · right
            exact ⟨k2, h2, by rwa [regsAt_clearKey_ne k k2 t hkk]⟩

theorem keysOf_fireKeys (ks : List String) (t : List (String × NotifyGroup)) :
    keysOf (fireKeys ks t).2 = keysOf t := by
  induction ks generalizing t with
  | nil => rfl
  | cons k rest ih =>
    cases hg : treeGet t k with
    | none => simp only [fireKeys, hg]; exact ih t
    | some g =>
      simp only [fireKeys, hg]
      rw [ih (clearKey k t), keysOf_clearKey]

theorem keysOf_deleteKey_mem (k k2 : String) (t : List (String × NotifyGroup)) :
    k2 ∈ keysOf (deleteKey k t) ↔ k2 ∈ keysOf t ∧ ¬ k2 = k := by
  unfold keysOf deleteKey
  simp only [List.mem_map, List.mem_filter]
  constructor
  · rintro ⟨e, ⟨he, hne⟩, rfl⟩
    exact ⟨⟨e, he, rfl⟩, by simpa using hne⟩
  · rintro ⟨⟨e, he, rfl⟩, hne⟩
    exact ⟨e, ⟨he, by simpa using hne⟩, rfl⟩

theorem keysOf_foldr_deleteKey (ds : List String) (t : List (String × NotifyGroup))
    (k : String) :
    k ∈ keysOf (ds.foldr deleteKey t) ↔ k ∈ keysOf t ∧ k ∉ ds := by
  induction ds with
  | nil => simp
  | cons d rest ih =>
    simp only [List.foldr_cons]
    rw [keysOf_deleteKey_mem, ih]
    constructor
    · rintro ⟨⟨hk, hr⟩, hd⟩
      refine ⟨hk, ?_⟩
      simp only [List.mem_cons, not_or]
      exact ⟨hd, hr⟩
    · rintro ⟨hk, hdr⟩
      simp only [List.mem_cons, not_or] at hdr
      exact ⟨⟨hk, hdr.2⟩, hdr.1⟩

theorem treeGet_of_mem_nodup (t : List (String × NotifyGroup))
    (e : String × NotifyGroup) (hnd : (keysOf t).Nodup) (he : e ∈ t) :
    treeGet t e.1 = some e.2 := by
  induction t with
  | nil => cases he
  | cons a rest ih =>
    have hnd2 : (keysOf rest).Nodup := (List.nodup_cons.mp hnd).2
    rcases List.mem_cons.mp he with h1 | hr
    · subst h1
      unfold treeGet
      rw [find?_cons_pos (fun x => x.1 == e.1) e rest (by simp)]
      rfl
    · have hmem : e.1 ∈ keysOf rest := List.mem_map_of_mem _ hr
      have hna : a.1 ∉ keysOf rest := (List.nodup_cons.mp hnd).1
      have hne : ¬ (a.1 == e.1) = true := by
        simp only [beq_iff_eq]
        intro hh
        exact hna (hh ▸ hmem)
      unfold treeGet
      rw [find?_cons_neg (fun x => x.1 == e.1) a rest hne]
      exact ih hnd2 hr

theorem treeGet_append_self (t : List (String × NotifyGroup)) (k : String)
    (g : NotifyGroup) (h : treeGet t k = none) :
    treeGet (t ++ [(k, g)]) k = some g := by
  induction t with
  | nil =>
    unfold treeGet
    rw [List.nil_append, find?_cons_pos (fun e => e.1 == k) (k, g) [] (by simp)]
    rfl
  | cons e rest ih =>
    have hsplit : treeGet rest k = none ∧ ¬ (e.1 == k) = true := by
      unfold treeGet at h ⊢
      by_cases hp : (e.1 == k) = true
      · rw [find?_cons_pos (fun e => e.1 == k) e rest hp] at h
        exact absurd h (by simp)
      · rw [find?_cons_neg (fun e => e.1 == k) e rest hp] at h
        exact ⟨h, hp⟩
    unfold treeGet at ih ⊢
    rw [List.cons_append,
      find?_cons_neg (fun e => e.1 == k) e (rest ++ [(k, g)]) hsplit.2]
    exact ih hsplit.1

/-- Claim C2: PrefixWatch.Notify(p, subtree) fires exactly the notify
groups registered at keys that are prefixes of p (including the empty root
key and p itself), and no group at a key strictly extending p; with
subtree set it additionally fires every group whose key has p as a prefix.
A channel is woken iff it is registered at such a key. -/
theorem prefixWatch_notify_wakes (w : PrefixWatch) (p : String) (st : Bool)
    (c : Nat) (hnd : (keysOf w.watches).Nodup) :
    c ∈ (w.Notify p st).1 ↔
      ∃ e ∈ w.watches, c ∈ e.2 ∧
        (strPre e.1 p = true ∨ (st = true ∧ strPre p e.1 = true)) := by
  have hmain : (w.Notify p st).1 =
      (fireKeys
        (((w.watches.filter (fun e => strPre e.1 p)).map (fun e => e.1)) ++
          (if st then (w.watches.filter (fun e => strPre p e.1)).map (fun e => e.1)
           else [])) w.watches).1 := rfl
  rw [hmain, mem_fireKeys]
  constructor
  · rintro ⟨k, hkm, hc⟩
    rcases List.mem_append.mp hkm with hpath | hsub
    · rcases List.mem_map.mp hpath with ⟨e, hef, rfl⟩
      have he := List.mem_filter.mp hef
      have hg : treeGet w.watches e.1 = some e.2 :=
        treeGet_of_mem_nodup _ e hnd he.1
      refine ⟨e, he.1, ?_, Or.inl he.2⟩
      simp only [regsAt, hg, Option.getD_some] at hc
      exact hc
    · by_cases hst : st = true
      · rw [if_pos hst] at hsub
        rcases List.mem_map.mp hsub with ⟨e, hef, rfl⟩
        have he := List.mem_filter.mp hef
        have hg : treeGet w.watches e.1 = some e.2 :=
          treeGet_of_mem_nodup _ e hnd he.1
        refine ⟨e, he.1, ?_, Or.inr ⟨hst, he.2⟩⟩
        simp only [regsAt, hg, Option.getD_some] at hc
        exact hc
      · rw [if_neg hst] at hsub
        exact absurd hsub (by simp)
  · rintro ⟨e, he, hc, hcond⟩
    refine ⟨e.1, ?_, ?_⟩
    · rcases hcond with h1 | ⟨hst, h2⟩
      · exact List.mem_append.mpr
          (Or.inl (List.mem_map_of_mem _ (List.mem_filter.mpr ⟨he, h1⟩)))
      · refine List.mem_append.mpr (Or.inr ?_)
        rw [if_pos hst]
        exact List.mem_map_of_mem _ (List.mem_filter.mpr ⟨he, h2⟩)
    · simp only [regsAt, treeGet_of_mem_nodup _ e hnd he, Option.getD_some]
      exact hc

/-- Claim C3: after Notify(p, subtree), every key visited by that call
except the empty root key has been deleted from the prefix map; the root
key is present afterwards iff it was present before; and a later
GetSubwatch on a deleted key returns a fresh empty NotifyGroup and
re-inserts it. -/
theorem prefixWatch_notify_cleanup (w : PrefixWatch) (p k : String) (st : Bool)
    (hk : (k == "") = false)
    (hmem : k ∈ keysOf w.watches)
    (hcond : strPre k p = true ∨ (st = true ∧ strPre p k = true)) :
    treeGet ((w.Notify p st).2).watches k = none ∧
      (((w.Notify p st).2).GetSubwatch k).1 = [] ∧
      treeGet ((((w.Notify p st).2).GetSubwatch k).2).watches k = some [] ∧
      ("" ∈ keysOf ((w.Notify p st).2).watches ↔ "" ∈ keysOf w.watches) := by
  simp only [keysOf] at hmem
  obtain ⟨e, he, hek⟩ : ∃ e ∈ w.watches, e.1 = k := by
    rcases List.mem_map.mp hmem with ⟨e, he, hek⟩
    exact ⟨e, he, hek⟩
  subst hek
  have hvk : e.1 ∈ ((w.watches.filter (fun e => strPre e.1 p)).map (fun e => e.1)) ++
      (if st then (w.watches.filter (fun e => strPre p e.1)).map (fun e => e.1)
       else []) := by
    rcases hcond with h1 | ⟨hst, h2⟩
    · exact List.mem_append.mpr
        (Or.inl (List.mem_map_of_mem _ (List.mem_filter.mpr ⟨he, h1⟩)))
    · refine List.mem_append.mpr (Or.inr ?_)
      rw [if_pos hst]
      exact List.mem_map_of_mem _ (List.mem_filter.mpr ⟨he, h2⟩)
  have hclean : e.1 ∈ (((w.watches.filter (fun e => strPre e.1 p)).map (fun e => e.1)) ++
      (if st then (w.watches.filter (fun e => strPre p e.1)).map (fun e => e.1)
       else [])).filter (fun k2 => !(k2 == "")) :=
    List.mem_filter.mpr ⟨hvk, by simp [hk]⟩
  have heq : ((w.Notify p st).2).watches =
      ((((w.watches.filter (fun e => strPre e.1 p)).map (fun e => e.1)) ++
          (if st then (w.watches.filter (fun e => strPre p e.1)).map (fun e => e.1)
           else [])).filter (fun k2 => !(k2 == ""))).foldr deleteKey
        (fireKeys (((w.watches.filter (fun e => strPre e.1 p)).map (fun e => e.1)) ++
          (if st then (w.watches.filter (fun e => strPre p e.1)).map (fun e => e.1)
           else [])) w.watches).2 := rfl
  have h1 : treeGet ((w.Notify p st).2).watches e.1 = none := by
    rw [heq]
    apply (treeGet_eq_none_iff _ _).mpr
    intro hcontra
    exact ((keysOf_foldr_deleteKey _ _ _).mp hcontra).2 hclean
  refine ⟨h1, ?_, ?_, ?_⟩
  · simp only [PrefixWatch.GetSubwatch, h1]
  · simp only [PrefixWatch.GetSubwatch, h1]
    exact treeGet_append_self _ _ _ h1
  · rw [heq, keysOf_foldr_deleteKey, keysOf_fireKeys]
    constructor
    · rintro ⟨hr, _⟩
      exact hr
    · intro hr
      refine ⟨hr, ?_⟩
      intro hcontra
      have hf := (List.mem_filter.mp hcontra).2
      simp at hf

/-- Concrete prefix-watch tree for the C2 witness, one watcher per key. -/
def pw2 : PrefixWatch :=
  { watches := [("", [1]), ("/a", [2]), ("/a/b", [3]), ("/a/b/c", [4])] }

/-- Witness for the C2 theorem at concrete inputs: Notify("/a/b", false)
wakes the watcher registered on "/a/b"; Notify("/a", true) wakes the
watcher registered on the subtree key "/a/b/c". -/
theorem prefixWatch_notify_wakes_witness :
    (keysOf pw2.watches).Nodup ∧
      3 ∈ (pw2.Notify "/a/b" false).1 ∧ 4 ∈ (pw2.Notify "/a" true).1 :=
  ⟨by decide,
    (prefixWatch_notify_wakes pw2 "/a/b" false 3 (by decide)).mpr
      ⟨("/a/b", [3]), by decide, by decide, Or.inl (by decide)⟩,
    (prefixWatch_notify_wakes pw2 "/a" true 4 (by decide)).mpr
      ⟨("/a/b/c", [4]), by decide, by decide, Or.inr ⟨rfl, by decide⟩⟩⟩

/-- Concrete prefix-watch tree for the C3 witness. -/
def pw3 : PrefixWatch :=
  { watches := [("", [1]), ("/a", [2]), ("/a/b", [3])] }

/-- Witness for the C3 theorem at a concrete input. -/
theorem prefixWatch_notify_cleanup_witness :
    ("/a" == "") = false ∧ "/a" ∈ keysOf pw3.watches ∧
      (treeGet ((pw3.Notify "/a/b" false).2).watches "/a" = none ∧
        (((pw3.Notify "/a/b" false).2).GetSubwatch "/a").1 = [] ∧
        treeGet ((((pw3.Notify "/a/b" false).2).GetSubwatch "/a").2).watches "/a" =
          some [] ∧
        ("" ∈ keysOf ((pw3.Notify "/a/b" false).2).watches ↔
          "" ∈ keysOf pw3.watches)) :=
  ⟨by decide, by decide,
    prefixWatch_notify_cleanup pw3 "/a/b" "/a" false (by decide) (by decide)
      (Or.inl (by decide))⟩

/-! ### The catalog state store

The state-store implementation file is not under src/ — only its tests
(state_store_test.go) and the spec describe it — so the store is modelled
from the spec here.  Tables are association lists with unique composite
keys; the per-table tracked max index is held explicitly. -/

/-- Modelled from the spec: structs.Node — a catalog node row with its
version indices (state_store.go is not under src/). -/
structure Node where
  node : String
  address : String
  createIndex : Nat
  modifyIndex : Nat
deriving DecidableEq

/-- Modelled from the spec: structs.NodeService — a service row owned by a
node, keyed by service id (state_store.go is not under src/). -/
structure NodeService where
  id : String
  service : String
  tags : List String
  address : String
  port : Nat
  createIndex : Nat
  modifyIndex : Nat
deriving DecidableEq

/-- Modelled from the spec: structs.HealthCheck — a check row owned by a
node, keyed by check id, optionally referencing a service by id
(state_store.go is not under src/). -/
structure HealthCheck where
  node : String
  checkID : String
  name : String
  status : String
  notes : String
  output : String
  serviceID : String
  serviceName : String
  createIndex : Nat
  modifyIndex : Nat
deriving DecidableEq

/-- Modelled from the spec: the referential-integrity errors ErrMissingNode
and ErrMissingService returned by EnsureService/EnsureCheck. -/
inductive StoreError where
  | ErrMissingNode
  | ErrMissingService
deriving DecidableEq

/-- Modelled from the spec: the NodeServices result — the node's version
metadata together with its services keyed by service id. -/
structure NodeServicesResult where
  node : Node
  services : List (String × NodeService)
deriving DecidableEq

/-- Modelled from the spec: the StateStore — the nodes/services/checks
tables (services keyed by (node name, service id)) and each table's
tracked max index (state_store.go is not under src/). -/
structure StateStore where
  nodes : List Node
  services : List (String × NodeService)
  checks : List HealthCheck
  indexNodes : Nat
  indexServices : Nat
  indexChecks : Nat
deriving DecidableEq

/-- A state store with no rows and all table indices zero. -/
def StateStore.empty : StateStore :=
  { nodes := [], services := [], checks := [],
    indexNodes := 0, indexServices := 0, indexChecks := 0 }

/-- Unique-key table upsert: replace the first row matching the key
predicate, or append the row. -/
def upsertBy {α : Type} (q : α → Bool) (row : α) : List α → List α
  | [] => [row]
  | x :: rest => if q x then row :: rest else x :: upsertBy q row rest

/-- Modelled from the spec: StateStore.GetNode — the node with this name,
or a not-found indicator (none) with no error. -/
def StateStore.GetNode (s : StateStore) (name : String) : Option Node :=
  s.nodes.find? (fun n => n.node == name)

/-- Modelled from the spec: StateStore.EnsureNode — upsert a node by name;
an existing row keeps its CreateIndex and gets ModifyIndex = idx, a new
row gets CreateIndex = ModifyIndex = idx; the "nodes" table index advances
to idx. -/
def StateStore.EnsureNode (s : StateStore) (idx : Nat) (node : Node) : StateStore :=
  let row :=
    match s.GetNode node.node with
    | some ex => { node with createIndex := ex.createIndex, modifyIndex := idx }
    | none => { node with createIndex := idx, modifyIndex := idx }
  { s with
    nodes := upsertBy (fun n => n.node == node.node) row s.nodes,
    indexNodes := idx }

/-- Modelled from the spec: StateStore.DeleteNode — remove the node,
cascade to every NodeService and HealthCheck owned by it, advance the
"nodes" index to idx and the "services"/"checks" indices to idx when the
cascade removed matching rows; a missing node is a no-op. -/
def StateStore.DeleteNode (s : StateStore) (idx : Nat) (name : String) : StateStore :=
  if (s.GetNode name).isSome then
    { s with
      nodes := s.nodes.filter (fun n => !(n.node == name)),
      services := s.services.filter (fun e => !(e.1 == name)),
      checks := s.checks.filter (fun c => !(c.node == name)),
      indexNodes := idx,
      indexServices :=
        if s.services.any (fun e => e.1 == name) then idx else s.indexServices,
      indexChecks :=
        if s.checks.any (fun c => c.node == name) then idx else s.indexChecks }
  else s

/-- Modelled from the spec: StateStore.EnsureService — fails with
ErrMissingNode when the node is unregistered (the transaction aborts, so
the store is unchanged); otherwise upserts the (node, service id) row with
the EnsureNode index rules and advances the "services" index. -/
def StateStore.EnsureService (s : StateStore) (idx : Nat) (nodeName : String)
    (svc : NodeService) : Except StoreError StateStore :=
  if (s.GetNode nodeName).isNone then .error .ErrMissingNode
  else
    let row :=
      match s.services.find? (fun e => e.1 == nodeName && e.2.id == svc.id) with
      | some ex => { svc with createIndex := ex.2.createIndex, modifyIndex := idx }
      | none => { svc with createIndex := idx, modifyIndex := idx }
    .ok { s with
      services :=
        upsertBy (fun e => e.1 == nodeName && e.2.id == svc.id) (nodeName, row)
          s.services,
      indexServices := idx }

/-- Modelled from the spec: StateStore.NodeServices — for an existing node,
a snapshot of all its services keyed by service id plus the node's version
metadata reflecting the highest index among its services (or the node's
own indices if it has none); none when the node does not exist. -/
def StateStore.NodeServices (s : StateStore) (nodeName : String) :
    Option NodeServicesResult :=
  match s.GetNode nodeName with
  | none => none
  | some nd =>
    let svcs := s.services.filter (fun e => e.1 == nodeName)
    let hiMod := svcs.foldl (fun acc e => max acc e.2.modifyIndex) 0
    let hiCre := svcs.foldl (fun acc e => max acc e.2.createIndex) 0
    some
      { node :=
          { nd with
            createIndex := if svcs.isEmpty then nd.createIndex else hiCre,
            modifyIndex := if svcs.isEmpty then nd.modifyIndex else hiMod },
        services := svcs.map (fun e => (e.2.id, e.2)) }

/-- Modelled from the spec: StateStore.DeleteNodeService — remove the
service row, cascade to HealthChecks referencing that (node, service id)
pair, advance the "services" index and, when checks were removed, the
"checks" index; a missing service is a no-op, not an error. -/
def StateStore.DeleteNodeService (s : StateStore) (idx : Nat)
    (nodeName serviceID : String) : StateStore :=
  if s.services.any (fun e => e.1 == nodeName && e.2.id == serviceID) then
    { s with
      services :=
        s.services.filter (fun e => !(e.1 == nodeName && e.2.id == serviceID)),
      checks :=
        s.checks.filter (fun c => !(c.node == nodeName && c.serviceID == serviceID)),
      indexServices := idx,
      indexChecks :=
        if s.checks.any (fun c => c.node == nodeName && c.serviceID == serviceID)
        then idx else s.indexChecks }
  else s

/-- Modelled from the spec: StateStore.EnsureCheck — fails with
ErrMissingNode when the check's node does not exist, with
ErrMissingService when the check names a non-empty service id absent from
that node; otherwise upserts the (node, check id) row with the EnsureNode
index rules and advances the "checks" index. -/
def StateStore.EnsureCheck (s : StateStore) (idx : Nat) (chk : HealthCheck) :
    Except StoreError StateStore :=
  if (s.GetNode chk.node).isNone then .error .ErrMissingNode
  else if chk.serviceID != "" &&
      !(s.services.any (fun e => e.1 == chk.node && e.2.id == chk.serviceID)) then
    .error .ErrMissingService
  else
    let row :=
      match s.checks.find? (fun c => c.node == chk.node && c.checkID == chk.checkID) with
      | some ex => { chk with createIndex := ex.createIndex, modifyIndex := idx }
      | none => { chk with createIndex := idx, modifyIndex := idx }
    .ok { s with
      checks :=
        upsertBy (fun c => c.node == chk.node && c.checkID == chk.checkID) row
          s.checks,
      indexChecks := idx }

/-- Modelled from the spec: StateStore.NodeChecks — all checks for a node;
an empty list, not an error, when the node has none or does not exist. -/
def StateStore.NodeChecks (s : StateStore) (nodeName : String) : List HealthCheck :=
  s.checks.filter (fun c => c.node == nodeName)

/-- Modelled from the spec: StateStore.maxIndex — the tracked maximum index
of a table (0 for an unknown table name). -/
def StateStore.maxIndex (s : StateStore) (table : String) : Nat :=
  if table == "nodes" then s.indexNodes
  else if table == "services" then s.indexServices
  else if table == "checks" then s.indexChecks
  else 0

theorem find?_upsertBy_self {α : Type} (q : α → Bool) (row : α) (xs : List α)
    (hq : q row = true) : (upsertBy q row xs).find? q = some row := by
  induction xs with
  | nil =>
    show [row].find? q = some row
    rw [find?_cons_pos q row [] hq]
  | cons x rest ih =>
    show (if q x then row :: rest else x :: upsertBy q row rest).find? q = some row
    by_cases hx : q x = true
    · rw [if_pos hx, find?_cons_pos q row rest hq]
    · rw [if_neg hx, find?_cons_neg q x _ hx]
      exact ih

/-- Claim C5: EnsureNode(i, n) inserts a new node with CreateIndex =
ModifyIndex = i when no node of that name exists, otherwise preserves the
stored CreateIndex and sets ModifyIndex = i; repeating the call with
identical content leaves the stored row unchanged (CreateIndex kept,
ModifyIndex = i, no field regresses). -/
theorem ensureNode_upsert (s : StateStore) (i : Nat) (nd : Node) :
    (s.GetNode nd.node = none →
      (s.EnsureNode i nd).GetNode nd.node =
        some { nd with createIndex := i, modifyIndex := i }) ∧
    (∀ ex, s.GetNode nd.node = some ex →
      (s.EnsureNode i nd).GetNode nd.node =
        some { nd with createIndex := ex.createIndex, modifyIndex := i }) ∧
    ((s.EnsureNode i nd).EnsureNode i nd).GetNode nd.node =
      (s.EnsureNode i nd).GetNode nd.node := by
  have step : ∀ (t : StateStore) (ex : Option Node), t.GetNode nd.node = ex →
      (t.EnsureNode i nd).GetNode nd.node =
        some (match ex with
          | some e => { nd with createIndex := e.createIndex, modifyIndex := i }
          | none => { nd with createIndex := i, modifyIndex := i }) := by
    intro t ex hex
    unfold StateStore.EnsureNode
    rw [hex]
    cases ex with
    | none =>
      show (upsertBy (fun n => n.node == nd.node)
          { nd with createIndex := i, modifyIndex := i } t.nodes).find?
          (fun n => n.node == nd.node) = _
      exact find?_upsertBy_self _ _ _ (by simp)
    | some e =>
      show (upsertBy (fun n => n.node == nd.node)
          { nd with createIndex := e.createIndex, modifyIndex := i } t.nodes).find?
          (fun n => n.node == nd.node) = _
      exact find?_upsertBy_self _ _ _ (by simp)
  refine ⟨?_, ?_, ?_⟩
  · intro h
    exact step s none h
  · intro ex h
    exact step s (some ex) h
  · cases hg : s.GetNode nd.node with
    | none =>
      have h1 := step s none hg
      have h2 := step (s.EnsureNode i nd) (some _) h1
      rw [h1, h2]
    | some ex =>
      have h1 := step s (some ex) hg
      have h2 := step (s.EnsureNode i nd) (some _) h1
      rw [h1, h2]

/-- Concrete node for the C5 witness. -/
def w5nd : Node :=
  { node := "node1", address := "1.1.1.1", createIndex := 0, modifyIndex := 0 }

/-- Witness for the C5 theorem at a concrete input. -/
theorem ensureNode_upsert_witness :
    StateStore.empty.GetNode "node1" = none ∧
      (StateStore.empty.EnsureNode 1 w5nd).GetNode "node1" =
        some { w5nd with createIndex := 1, modifyIndex := 1 } :=
  ⟨rfl, (ensureNode_upsert StateStore.empty 1 w5nd).1 rfl⟩

/-- Claim C4: EnsureService on an unregistered node fails with
ErrMissingNode (no new store is produced, so the store is unchanged);
EnsureCheck fails with ErrMissingNode when the check's node does not exist
and with ErrMissingService when it names a non-empty service id absent
from that node; a check with an empty service id on an existing node
succeeds. -/
theorem ensure_referential_integrity (s : StateStore) (i : Nat) (n : String)
    (svc : NodeService) (chk : HealthCheck) :
    (s.GetNode n = none → s.EnsureService i n svc = .error .ErrMissingNode) ∧
    (s.GetNode chk.node = none → s.EnsureCheck i chk = .error .ErrMissingNode) ∧
    ((s.GetNode chk.node).isSome = true → chk.serviceID ≠ "" →
      s.services.any (fun e => e.1 == chk.node && e.2.id == chk.serviceID) = false →
      s.EnsureCheck i chk = .error .ErrMissingService) ∧
    ((s.GetNode chk.node).isSome = true → chk.serviceID = "" →
      (s.EnsureCheck i chk).toOption.isSome = true) := by
  refine ⟨?_, ?_, ?_, ?_⟩
  · intro h
    simp [StateStore.EnsureService, h]
  · intro h
    simp [StateStore.EnsureCheck, h]
  · intro h1 h2 h3
    obtain ⟨nd, hnd⟩ := Option.isSome_iff_exists.mp h1
    have h2b : (chk.serviceID != "") = true := bne_iff_ne.mpr h2
    simp [StateStore.EnsureCheck, hnd, h2b, h3]
  · intro h1 h2
    obtain ⟨nd, hnd⟩ := Option.isSome_iff_exists.mp h1
    simp [StateStore.EnsureCheck, hnd, h2, Except.toOption]

/-- Concrete service and check rows for the C4 witness. -/
def w4svc : NodeService :=
  { id := "service1", service := "redis", tags := [], address := "1.1.1.1",
    port := 1111, createIndex := 0, modifyIndex := 0 }

/-- Concrete check row for the C4 witness. -/
def w4chk : HealthCheck :=
  { node := "node1", checkID := "check1", name := "", status := "", notes := "",
    output := "", serviceID := "", serviceName := "", createIndex := 0,
    modifyIndex := 0 }

/-- Witness for the C4 theorem at a concrete input. -/
theorem ensure_referential_integrity_witness :
    StateStore.empty.GetNode "node1" = none ∧
      StateStore.empty.EnsureService 5 "node1" w4svc = .error .ErrMissingNode :=
  ⟨rfl,
    (ensure_referential_integrity StateStore.empty 5 "node1" w4svc w4chk).1 rfl⟩

/-- Claim C1: DeleteNode(i, N) on a node that has registered services and
health checks removes the node, cascades to delete its services and
checks, and advances the tracked max indices of the "nodes", "services"
and "checks" tables to i (services/checks advanced because matching rows
were removed by the cascade). -/
theorem deleteNode_cascade (s : StateStore) (i : Nat) (n : String)
    (hn : (s.GetNode n).isSome = true)
    (hs : s.services.any (fun e => e.1 == n) = true)
    (hc : s.checks.any (fun c => c.node == n) = true) :
    (s.DeleteNode i n).GetNode n = none ∧
      (s.DeleteNode i n).NodeServices n = none ∧
      (s.DeleteNode i n).NodeChecks n = [] ∧
      (s.DeleteNode i n).maxIndex "nodes" = i ∧
      (s.DeleteNode i n).maxIndex "services" = i ∧
      (s.DeleteNode i n).maxIndex "checks" = i := by
  have hd : s.DeleteNode i n =
      { s with
        nodes := s.nodes.filter (fun nd => !(nd.node == n)),
        services := s.services.filter (fun e => !(e.1 == n)),
        checks := s.checks.filter (fun c => !(c.node == n)),
        indexNodes := i, indexServices := i, indexChecks := i } := by
    unfold StateStore.DeleteNode
    rw [if_pos hn, if_pos hs, if_pos hc]
  have hgn : (s.DeleteNode i n).GetNode n = none := by
    rw [hd]
    show (s.nodes.filter (fun nd => !(nd.node == n))).find? (fun nd => nd.node == n) =
      none
    apply List.find?_eq_none.mpr
    intro x hx
    have h2 := (List.mem_filter.mp hx).2
    simpa using h2
  refine ⟨hgn, ?_, ?_, ?_, ?_, ?_⟩
  · simp [StateStore.NodeServices, hgn]
  · rw [hd]
    show (s.checks.filter (fun c => !(c.node == n))).filter (fun c => c.node == n) = []
    apply List.filter_eq_nil_iff.mpr
    intro a ha
    have h2 := (List.mem_filter.mp ha).2
    simpa using h2
  · rw [hd]; rfl
  · rw [hd]; rfl
  · rw [hd]; rfl

/-- Concrete store for the C1 witness: one node carrying one service and
one check. -/
def w1s : StateStore :=
  { nodes := [{ node := "node1", address := "", createIndex := 0, modifyIndex := 0 }],
    services := [("node1",
      { id := "service1", service := "", tags := [], address := "1.1.1.1",
        port := 1111, createIndex := 1, modifyIndex := 1 })],
    checks := [{ node := "node1", checkID := "check1", name := "", status := "",
                 notes := "", output := "", serviceID := "", serviceName := "",
                 createIndex := 2, modifyIndex := 2 }],
    indexNodes := 0, indexServices := 1, indexChecks := 2 }

/-- Witness for the C1 theorem at a concrete input. -/
theorem deleteNode_cascade_witness :
    ((w1s.GetNode "node1").isSome = true ∧
      w1s.services.any (fun e => e.1 == "node1") = true ∧
      w1s.checks.any (fun c => c.node == "node1") = true) ∧
      ((w1s.DeleteNode 3 "node1").GetNode "node1" = none ∧
        (w1s.DeleteNode 3 "node1").NodeServices "node1" = none ∧
        (w1s.DeleteNode 3 "node1").NodeChecks "node1" = [] ∧
        (w1s.DeleteNode 3 "node1").maxIndex "nodes" = 3 ∧
        (w1s.DeleteNode 3 "node1").maxIndex "services" = 3 ∧
        (w1s.DeleteNode 3 "node1").maxIndex "checks" = 3) :=
  ⟨⟨rfl, rfl, rfl⟩, deleteNode_cascade w1s 3 "node1" rfl rfl rfl⟩

theorem le_foldl_max_init {α : Type} (f : α → Nat) (l : List α) (a : Nat) :
    a ≤ l.foldl (fun acc y => max acc (f y)) a := by
  induction l generalizing a with
  | nil => exact Nat.le_refl a
  | cons y rest ih =>
    exact Nat.le_trans (Nat.le_max_left a (f y)) (ih (max a (f y)))

theorem foldl_max_le {α : Type} (f : α → Nat) (l : List α) :
    ∀ (a : Nat) (x : α), x ∈ l → f x ≤ l.foldl (fun acc y => max acc (f y)) a := by
  induction l with
  | nil =>
    intro a x hx
    cases hx
  | cons y rest ih =>
    intro a x hx
    rcases List.mem_cons.mp hx with rfl | hr
    · exact Nat.le_trans (Nat.le_max_right a (f x)) (le_foldl_max_init f rest _)
    · exact ih _ x hr

theorem foldl_max_eq {α : Type} (f : α → Nat) (l : List α) :
    ∀ (a : Nat), l.foldl (fun acc y => max acc (f y)) a = a ∨
      ∃ x ∈ l, l.foldl (fun acc y => max acc (f y)) a = f x := by
  induction l with
  | nil =>
    intro a
    exact Or.inl rfl
  | cons y rest ih =>
    intro a
    rw [List.foldl_cons]
    rcases ih (max a (f y)) with h1 | ⟨x, hx, h2⟩
    · rw [h1]
      rcases Nat.le_total a (f y) with hle | hle
      · exact Or.inr ⟨y, by simp, Nat.max_eq_right hle⟩
      · exact Or.inl (Nat.max_eq_left hle)
    · exact Or.inr ⟨x, by simp [hx], h2⟩

theorem foldl_max_mem {α : Type} (f : α → Nat) (l : List α) (hne : ¬ l = []) :
    ∃ x ∈ l, l.foldl (fun acc y => max acc (f y)) 0 = f x := by
  rcases foldl_max_eq f l 0 with h1 | h2
  · cases l with
    | nil => exact absurd rfl hne
    | cons y rest =>
      refine ⟨y, by simp, ?_⟩
      have hle := foldl_max_le f (y :: rest) 0 y (by simp)
      rw [h1] at hle ⊢
      exact (Nat.le_zero.mp hle).symm
  · exact h2

/-- Claim C7: NodeServices(n) returns, for an existing node, a snapshot of
all of n's services keyed by service id together with version metadata
whose ModifyIndex equals the highest ModifyIndex among n's services (or
n's own ModifyIndex when it has none); for a non-existent node it returns
a not-found indicator (none) with no error. -/
theorem nodeServices_spec (s : StateStore) (n : String) :
    (s.GetNode n = none → s.NodeServices n = none) ∧
    (∀ nd, s.GetNode n = some nd →
      ∃ r, s.NodeServices n = some r ∧
        (∀ sid svc, (sid, svc) ∈ r.services ↔
          sid = svc.id ∧ (n, svc) ∈ s.services) ∧
        (∀ e ∈ s.services, e.1 = n → e.2.modifyIndex ≤ r.node.modifyIndex) ∧
        (¬ s.services.filter (fun e => e.1 == n) = [] →
          ∃ e ∈ s.services, e.1 = n ∧ r.node.modifyIndex = e.2.modifyIndex) ∧
        (s.services.filter (fun e => e.1 == n) = [] →
          r.node.modifyIndex = nd.modifyIndex)) := by
  constructor
  · intro h
    simp [StateStore.NodeServices, h]
  · intro nd h
    have hmain : s.NodeServices n = some
        { node := { nd with
            createIndex := if (s.services.filter (fun e => e.1 == n)).isEmpty
              then nd.createIndex
              else (s.services.filter (fun e => e.1 == n)).foldl
                (fun acc e => max acc e.2.createIndex) 0,
            modifyIndex := if (s.services.filter (fun e => e.1 == n)).isEmpty
              then nd.modifyIndex
              else (s.services.filter (fun e => e.1 == n)).foldl
                (fun acc e => max acc e.2.modifyIndex) 0 },
          services := (s.services.filter (fun e => e.1 == n)).map
            (fun e => (e.2.id, e.2)) } := by
      unfold StateStore.NodeServices
      rw [h]
    refine ⟨_, hmain, ?_, ?_, ?_, ?_⟩
    · intro sid svc
      show (sid, svc) ∈ (s.services.filter (fun e => e.1 == n)).map
          (fun e => (e.2.id, e.2)) ↔ _
      constructor
      · intro hm
        rcases List.mem_map.mp hm with ⟨e, hef, heq⟩
        have hef2 := List.mem_filter.mp hef
        have he1 : e.1 = n := by simpa using hef2.2
        have hid : e.2.id = sid := congrArg Prod.fst heq
        have hsv : e.2 = svc := congrArg Prod.snd heq
        refine ⟨?_, ?_⟩
        · rw [← hid, hsv]
        · have hpe : (n, svc) = e := by
            rw [← he1, ← hsv]
          exact hpe ▸ hef2.1
      · rintro ⟨hsid, hmem⟩
        refine List.mem_map.mpr ⟨(n, svc), List.mem_filter.mpr ⟨hmem, by simp⟩, ?_⟩
        show (svc.id, svc) = (sid, svc)
        rw [hsid]
    · intro e he hen
      have hef : e ∈ s.services.filter (fun e2 => e2.1 == n) :=
        List.mem_filter.mpr ⟨he, by simp [hen]⟩
      have hie : (s.services.filter (fun e2 => e2.1 == n)).isEmpty = false := by
        cases hb : (s.services.filter (fun e2 => e2.1 == n)).isEmpty with
        | false => rfl
        | true =>
          rw [List.isEmpty_iff.mp hb] at hef
          exact absurd hef (by simp)
      show e.2.modifyIndex ≤
        (if (s.services.filter (fun e2 => e2.1 == n)).isEmpty then nd.modifyIndex
         else (s.services.filter (fun e2 => e2.1 == n)).foldl
           (fun acc e2 => max acc e2.2.modifyIndex) 0)
      rw [hie]
      simp only [Bool.false_eq_true, if_false]
      exact foldl_max_le (fun e2 => e2.2.modifyIndex) _ 0 e hef
    · intro hne
      have hie : (s.services.filter (fun e2 => e2.1 == n)).isEmpty = false := by
        cases hb : (s.services.filter (fun e2 => e2.1 == n)).isEmpty with
        | false => rfl
        | true => exact absurd (List.isEmpty_iff.mp hb) hne
      obtain ⟨x, hx, hfold⟩ := foldl_max_mem (fun e2 => e2.2.modifyIndex)
        (s.services.filter (fun e2 => e2.1 == n)) hne
      have hx2 := List.mem_filter.mp hx
      refine ⟨x, hx2.1, by simpa using hx2.2, ?_⟩
      show (if (s.services.filter (fun e2 => e2.1 == n)).isEmpty then nd.modifyIndex
         else (s.services.filter (fun e2 => e2.1 == n)).foldl
           (fun acc e2 => max acc e2.2.modifyIndex) 0) = x.2.modifyIndex
      rw [hie]
      simp only [Bool.false_eq_true, if_false]
      exact hfold
    · intro hemp
      show (if (s.services.filter (fun e2 => e2.1 == n)).isEmpty then nd.modifyIndex
         else (s.services.filter (fun e2 => e2.1 == n)).foldl
           (fun acc e2 => max acc e2.2.modifyIndex) 0) = nd.modifyIndex
      rw [hemp]
      rfl

/-- Concrete store for the C7 witness: one node with two services carrying
indices 10 and 20. -/
def w7s : StateStore :=
  { nodes := [{ node := "node1", address := "", createIndex := 0, modifyIndex := 0 }],
    services := [("node1",
      { id := "service1", service := "redis", tags := [], address := "1.1.1.1",
        port := 1111, createIndex := 10, modifyIndex := 10 }),
      ("node1",
      { id := "service2", service := "redis", tags := [], address := "1.1.1.1",
        port := 1111, createIndex := 20, modifyIndex := 20 })],
    checks := [], indexNodes := 0, indexServices := 20, indexChecks := 0 }

/-- Witness for the C7 theorem at a concrete input. -/
theorem nodeServices_spec_witness :
    w7s.GetNode "node1" =
        some { node := "node1", address := "", createIndex := 0, modifyIndex := 0 } ∧
      (w7s.NodeServices "node1").isSome = true := by
  refine ⟨rfl, ?_⟩
  obtain ⟨r, hr, _⟩ := (nodeServices_spec w7s "node1").2
    { node := "node1", address := "", createIndex := 0, modifyIndex := 0 } rfl
  rw [hr]
  rfl

/-- Concrete node registered at index 1 in the C6 scenario. -/
def c6nd : Node :=
  { node := "node1", address := "", createIndex := 0, modifyIndex := 0 }

/-- Concrete service registered at index 2 in the C6 scenario. -/
def c6svc : NodeService :=
  { id := "service1", service := "", tags := [], address := "1.1.1.1",
    port := 1111, createIndex := 0, modifyIndex := 0 }

/-- Concrete check tied to service1, registered at index 3 in the C6
scenario. -/
def c6chk : HealthCheck :=
  { node := "node1", checkID := "check1", name := "", status := "", notes := "",
    output := "", serviceID := "service1", serviceName := "", createIndex := 0,
    modifyIndex := 0 }

/-- The store after the C6 registration sequence: node1 at index 1,
service1 at index 2, check1 at index 3. -/
def c6store : Except StoreError StateStore :=
  match (StateStore.empty.EnsureNode 1 c6nd).EnsureService 2 "node1" c6svc with
  | .error e => .error e
  | .ok s2 => s2.EnsureCheck 3 c6chk

/-- Claim C6: in the concrete sequence node1@1, service1@2, check1@3,
NodeChecks("node1") returns exactly one check with CreateIndex = 3 and
ModifyIndex = 3; after DeleteNodeService(4, "node1", "service1"),
NodeChecks("node1") is empty and maxIndex("checks") = 4. -/
theorem deleteNodeService_scenario :
    c6store.map (fun s3 =>
      (s3.NodeChecks "node1",
        (s3.DeleteNodeService 4 "node1" "service1").NodeChecks "node1",
        (s3.DeleteNodeService 4 "node1" "service1").maxIndex "checks")) =
      .ok ([{ c6chk with createIndex := 3, modifyIndex := 3 }], [], 4) := by
  rfl
